import Mathlib

/-!
# Verification of the myrient-downloader core engines

A shallow embedding of the filename tag-parsing / filter engine
(`FileParserService.js`, the `FilterService` class shipped with
`IpcManager.js`), the transfer scanner (`DownloadInfoService.js`), the
transfer engine (`DownloadService.js`) and the download/extraction
orchestrator (the `DownloadManager` class shipped with
`DownloadOperationManager.js`), together with proofs and refutations of
the specification claims about them.

Strings are modelled by their character lists (`List Char`); JavaScript
numbers appearing as revision ranks are modelled exactly by `ℚ` (the
values produced by the parser are small, far below any float64
precision boundary); byte counts are `ℕ`.
-/

set_option maxHeartbeats 1000000
set_option maxRecDepth 8000

namespace Myrient

/-- Characters matched by the JavaScript `\s` class and trimmed by
`String.prototype.trim` (the ASCII members; filenames in this system
contain no exotic Unicode space). -/
def jsWS (c : Char) : Bool :=
  c = ' ' ∨ c = '\t' ∨ c = '\n' ∨ c = '\r' ∨ c = '\x0b' ∨ c = '\x0c'

def isDigitC (c : Char) : Bool :=
  48 ≤ c.toNat ∧ c.toNat ≤ 57

/-- Numeric value of a digit run, as produced by JavaScript
`parseInt(p, 10) || 0` on a string of decimal digits (the empty string
parses to `NaN`, which `|| 0` turns into `0`). -/
def parseIntOr0 (l : List Char) : ℕ :=
  l.foldl (fun acc c => acc * 10 + (c.toNat - '0'.toNat)) 0

/-- `String.prototype.toLowerCase`, ASCII range. -/
def lowerL (l : List Char) : List Char :=
  l.map Char.toLower

/-- JavaScript `trim`: drop leading and trailing whitespace. -/
def trimL (l : List Char) : List Char :=
  ((l.dropWhile jsWS).reverse.dropWhile jsWS).reverse

/-- Substring containment, `String.prototype.includes`. -/
def containsSub (pat : List Char) : List Char → Bool
  | [] => pat.isEmpty
  | c :: r => pat.isPrefixOf (c :: r) || containsSub pat r

/-- The basename of a path: everything after the last `/`. -/
def afterLastSlash (l : List Char) : List Char :=
  (l.reverse.takeWhile (fun c => ¬ c = '/')).reverse

/-- Index of the last `'.'` of a basename, if any. -/
def lastDotIdx (b : List Char) : Option ℕ :=
  match (b.reverse.findIdx? (fun c => c = '.')) with
  | some p => some (b.length - 1 - p)
  | none => none

/-- `path.parse(filename).name`: the basename with its final extension
stripped.  A `'.'` at index 0 starts no extension (`.hidden` stays
whole), and the component `".."` is kept whole, exactly as in Node's
`path.posix.parse`. -/
def stripExtL (filename : List Char) : List Char :=
  let b := afterLastSlash filename
  if b = ['.', '.'] then b
  else
    match lastDotIdx b with
    | some i => if i = 0 then b else b.take i
    | none => b

/-! ## `FileParserService._parseRevision`

Each regular-expression search of the source is embedded as a
structurally recursive scanner with the same leftmost-match,
ordered-alternative, greedy-with-backtracking semantics as the
JavaScript engine on these particular patterns. -/

/-- Tail of `/(?:\(v|ver|version|rev|revision)\.?\s*([\d\.]+)\)/` after
one of the alternatives has matched: an optional `.`, then whitespace,
then a non-empty greedy run of digits/dots captured, then `)`.  Greedy
`[\d\.]+` needs no backtracking here because `)` is outside the class;
the optional dot is tried consumed first, then not consumed. -/
def versionTailAt (l : List Char) : Option (List Char) :=
  let run : List Char → Option (List Char) := fun r =>
    let r' := r.dropWhile jsWS
    let cap := r'.takeWhile (fun c => isDigitC c || c = '.')
    if cap ≠ [] ∧ (r'.drop cap.length).head? = some ')' then some cap else none
  match l with
  | '.' :: r => (run r).orElse (fun _ => run l)
  | _ => run l

/-- The alternatives `(?:\(v|ver|version|rev|revision)`, tried in the
pattern's order at a single position. -/
def versionPrefixes : List (List Char) :=
  [['(', 'v'], ['v', 'e', 'r'], ['v', 'e', 'r', 's', 'i', 'o', 'n'],
   ['r', 'e', 'v'], ['r', 'e', 'v', 'i', 's', 'i', 'o', 'n']]

/-- One match attempt of the version pattern at the head position. -/
def versionAt (l : List Char) : Option (List Char) :=
  versionPrefixes.foldr
    (fun p acc => if p.isPrefixOf l then (versionTailAt (l.drop p.length)).orElse (fun _ => acc) else acc)
    none

/-- Leftmost match of the version pattern: the captured `[\d\.]+` run. -/
def versionSearch : List Char → Option (List Char)
  | [] => none
  | c :: r => (versionAt (c :: r)).orElse (fun _ => versionSearch r)

/-- Split on `'.'` (JavaScript `String.prototype.split('.')`). -/
def splitDots : List Char → List (List Char)
  | [] => [[]]
  | c :: r =>
    let rest := splitDots r
    if c = '.' then [] :: rest
    else
      match rest with
      | [] => [[c]]
      | h :: t => (c :: h) :: t

/-- `major + minor/1000 + patch/1e6` from the captured version run. -/
def versionValue (cap : List Char) : ℚ :=
  let parts := (splitDots cap).map parseIntOr0
  (if parts.length > 0 then ((parts.headI : ℚ)) else 0)
    + (if parts.length > 1 then ((parts.getD 1 0 : ℚ)) / 1000 else 0)
    + (if parts.length > 2 then ((parts.getD 2 0 : ℚ)) / 1000000 else 0)

/-- One match attempt of `/(?:\(beta)\s*(\d+)\)/` (resp. alpha) at the
head position, parameterised by the literal word. -/
def numTagAt (word : List Char) (l : List Char) : Option (List Char) :=
  let pre := '(' :: word
  if pre.isPrefixOf l then
    let r := (l.drop pre.length).dropWhile jsWS
    let cap := r.takeWhile isDigitC
    if cap ≠ [] ∧ (r.drop cap.length).head? = some ')' then some cap else none
  else none

/-- Leftmost match of `/(?:\(beta)\s*(\d+)\)/` (resp. alpha). -/
def numTagSearch (word : List Char) : List Char → Option (List Char)
  | [] => none
  | c :: r => (numTagAt word (c :: r)).orElse (fun _ => numTagSearch word r)

def betaNumSearch (l : List Char) : Option (List Char) :=
  numTagSearch ['b', 'e', 't', 'a'] l

def alphaNumSearch (l : List Char) : Option (List Char) :=
  numTagSearch ['a', 'l', 'p', 'h', 'a'] l

/-- One match attempt of `/(\d{4}-\d{2}-\d{2})/` at the head position;
returns the eight digits of the date. -/
def dateAt (l : List Char) : Option (List Char) :=
  let d4 := l.take 4
  if d4.length = 4 ∧ d4.all isDigitC ∧ (l.drop 4).head? = some '-' then
    let l2 := l.drop 5
    let d2 := l2.take 2
    if d2.length = 2 ∧ d2.all isDigitC ∧ (l2.drop 2).head? = some '-' then
      let l3 := l2.drop 3
      let d3 := l3.take 2
      if d3.length = 2 ∧ d3.all isDigitC then some (d4 ++ d2 ++ d3) else none
    else none
  else none

/-- Leftmost match of the `YYYY-MM-DD` date pattern, digits only (the
source strips the dashes before `parseInt`). -/
def dateSearch : List Char → Option (List Char)
  | [] => none
  | c :: r => (dateAt (c :: r)).orElse (fun _ => dateSearch r)

def betaWord : List Char := ['(', 'b', 'e', 't', 'a', ')']
def alphaWord : List Char := ['(', 'a', 'l', 'p', 'h', 'a', ')']
def protoWord : List Char := ['(', 'p', 'r', 'o', 't', 'o', ')']

/-- `FileParserService._parseRevision`, on the extensionless name. -/
def parseRevisionL (nameNoExt : List Char) : ℚ :=
  let s := lowerL nameNoExt
  match versionSearch s with
  | some cap => versionValue cap
  | none =>
    match betaNumSearch s with
    | some cap => -1 + (parseIntOr0 cap : ℚ) / 100
    | none =>
      if containsSub betaWord s then -2
      else
        match alphaNumSearch s with
        | some cap => -3 + (parseIntOr0 cap : ℚ) / 100
        | none =>
          if containsSub alphaWord s then -4
          else if containsSub protoWord s then
            match dateSearch s with
            | some cap => -5 + (parseIntOr0 cap : ℚ) / 100000000
            | none => -6
          else 0

/-! ## `FileParserService.parseFilename` -/

/-- Prefix of the name before the leftmost match of `/\s*\(|\[/`:
`nameNoExt.split(/\s*\(|\[/, 1)[0]`.  A match starts at a `'['`, or at
the first of a whitespace run that ends at a `'('`. -/
def basePrefix : List Char → List Char
  | [] => []
  | c :: r =>
    if c = '[' ∨ ((c :: r).dropWhile jsWS).head? = some '(' then []
    else c :: basePrefix r

/-- Tag extraction, `/[\[(](.*?)[\])]/g`: lazily capture between an
opener `[`/`(` and the first closer `]`/`)`, repeatedly.  The state
holds the capture in progress. -/
def tagsGo : Option (List Char) → List Char → List (List Char)
  | _, [] => []
  | none, c :: r =>
    if c = '(' ∨ c = '[' then tagsGo (some []) r else tagsGo none r
  | some cur, c :: r =>
    if c = ')' ∨ c = ']' then trimL cur :: tagsGo none r
    else tagsGo (some (cur ++ [c])) r

/-- Insertion-ordered de-duplication (JavaScript `Set` over strings). -/
def dedupKeepFirst (l : List (List Char)) : List (List Char) :=
  l.foldl (fun acc t => if t ∈ acc then acc else acc ++ [t]) []

structure ParsedFile where
  name_raw : List Char
  base_name : List Char
  tags : List (List Char)
  revision : ℚ
deriving DecidableEq, Repr

/-- `FileParserService.parseFilename` (the tag categorisation map,
which no claim touches, is omitted). -/
def parseFilenameL (filename : List Char) : ParsedFile :=
  let nameNoExt := stripExtL filename
  { name_raw := filename
    base_name := trimL (basePrefix nameNoExt)
    tags := dedupKeepFirst (tagsGo none nameNoExt)
    revision := parseRevisionL nameNoExt }

def parseFilename (filename : String) : ParsedFile :=
  parseFilenameL filename.data

/-! ## The `FilterService` shipped with `IpcManager.js` -/

/-- The fields of a catalog entry that the filter engine reads.  In the
source these are plain objects carrying `name` (the raw listing name),
`base_name`, `tags` and `revision` from `parseFilename`. -/
structure FileInfo where
  name : List Char
  base_name : List Char
  tags : List (List Char)
  revision : ℚ
deriving DecidableEq, Repr

/-- A catalog entry as built by `FileParserService.parseFiles` for a
file item: the listing name plus the parsed fields. -/
def mkEntry (name : String) : FileInfo :=
  let p := parseFilenameL name.data
  { name := name.data, base_name := p.base_name, tags := p.tags, revision := p.revision }

/-- The filter criteria object.  `rev_mode`/`dedupe_mode` keep their
source spelling; an absent (`undefined`) mode is modelled by `[]`
(the empty string), which is falsy like `undefined` under `|| 'all'`. -/
structure Filters where
  include_tags : List (List Char)
  exclude_tags : List (List Char)
  include_strings : List (List Char)
  exclude_strings : List (List Char)
  rev_mode : List Char
  dedupe_mode : List Char
  priority_list : List (List Char)
deriving DecidableEq, Repr

/-- `FilterService._applyTagFilter`. -/
def applyTagFilter (fileList : List FileInfo) (includeTags excludeTags : List (List Char)) :
    List FileInfo :=
  if includeTags = [] ∧ excludeTags = [] then fileList
  else
    fileList.filter (fun f =>
      (includeTags = [] ∨ f.tags.any (fun t => t ∈ includeTags)) ∧
      (excludeTags = [] ∨ ¬ f.tags.any (fun t => t ∈ excludeTags)))

/-- `FilterService._applyStringFilter`. -/
def applyStringFilter (fileList : List FileInfo) (includeStrings excludeStrings : List (List Char)) :
    List FileInfo :=
  if includeStrings = [] ∧ excludeStrings = [] then fileList
  else
    fileList.filter (fun f =>
      let n := lowerL f.name
      (includeStrings = [] ∨ includeStrings.any (fun s => containsSub (lowerL s) n)) ∧
      ¬ (excludeStrings ≠ [] ∧ excludeStrings.any (fun s => containsSub (lowerL s) n)))

/-- Grouping by `base_name` with a `Map`: groups in first-seen key
order, members in list order. -/
def addToGroup (acc : List (List Char × List FileInfo)) (f : FileInfo) :
    List (List Char × List FileInfo) :=
  match acc with
  | [] => [(f.base_name, [f])]
  | (k, fs) :: rest =>
    if k = f.base_name then (k, fs ++ [f]) :: rest
    else (k, fs) :: addToGroup rest f

def groupByBase (l : List FileInfo) : List (List Char × List FileInfo) :=
  l.foldl addToGroup []

/-- `Math.max(...revisions)` over a non-empty group. -/
def maxRev (f0 : FileInfo) (rest : List FileInfo) : ℚ :=
  rest.foldl (fun m f => if m ≤ f.revision then f.revision else m) f0.revision

/-- `FilterService._applyRevisionFilter`. -/
def applyRevisionFilter (fileList : List FileInfo) (filters : Filters) : List FileInfo :=
  let mode := if filters.rev_mode = [] then "all".data else filters.rev_mode
  if mode = "all".data then fileList
  else if mode = "highest".data then
    (groupByBase fileList).flatMap (fun g =>
      match g.2 with
      | [] => []
      | f0 :: rest =>
        let m := maxRev f0 rest
        (f0 :: rest).filter (fun f => f.revision = m))
  else fileList

/-- Scan of the priority list with a decreasing weight: entry at index
`i` carries weight `priorityList.length - i`; a duplicated tag keeps
its **last** assignment, as in the `Map` constructor of the source. -/
def prioValGo (t : List Char) : List (List Char) → ℕ → ℕ → ℕ
  | [], _, acc => acc
  | p :: r, w, acc => prioValGo t r (w - 1) (if p = t then w else acc)

/-- Priority weight of one tag: the `Map` built from
`priorityList.map((tag, i) => [tag, priorityList.length - i])`, read
with `get(tag) || 0`. -/
def prioVal (priorityList : List (List Char)) (t : List Char) : ℕ :=
  prioValGo t priorityList priorityList.length 0

/-- Dedupe score of an entry: sum of its tags' priority weights. -/
def prioScore (priorityList : List (List Char)) (f : FileInfo) : ℕ :=
  (f.tags.map (prioVal priorityList)).sum

/-- `/^(Disc|Cart|Side) /.test(t)` -/
def isDiscTag (t : List Char) : Bool :=
  "Disc ".data.isPrefixOf t || "Cart ".data.isPrefixOf t || "Side ".data.isPrefixOf t

def hasDisc (f : FileInfo) : Bool :=
  f.tags.any isDiscTag

/-- The best-score fold of `_applyDedupeFilter`: running
`(bestScore, bestFile)` starting from `(-1, null)`, replaced on a
strictly greater score. -/
def bestFold (pl : List (List Char)) (group : List FileInfo) : ℤ × Option FileInfo :=
  group.foldl
    (fun st f => if (prioScore pl f : ℤ) > st.1 then ((prioScore pl f : ℤ), some f) else st)
    (-1, none)

/-- Per-group body of `_applyDedupeFilter` (`priority` mode). -/
def dedupeGroup (pl : List (List Char)) : List FileInfo → List FileInfo
  | [] => []
  | g0 :: rest =>
    let st := bestFold pl (g0 :: rest)
    let bestScore := st.1
    let bestFile := st.2.getD g0
    let allBest := (g0 :: rest).filter (fun f => (prioScore pl f : ℤ) = bestScore)
    let discBest := allBest.filter hasDisc
    if discBest ≠ [] then discBest else [bestFile]

/-- `FilterService._applyDedupeFilter`.  The trailing
`[...new Set(finalList)]` of the source deduplicates by object
*reference*; the grouping pass puts each (referentially distinct)
catalog object into the output at most once, so the `Set` round-trip is
the identity and is modelled as such. -/
def applyDedupeFilter (fileList : List FileInfo) (filters : Filters) : List FileInfo :=
  let mode := if filters.dedupe_mode = [] then "all".data else filters.dedupe_mode
  if mode = "all".data then fileList
  else if mode = "priority".data then
    (groupByBase fileList).flatMap (fun g => dedupeGroup filters.priority_list g.2)
  else fileList

/-- `FilterService.applyFilters`: the four stages in sequence. -/
def applyFilters (allFiles : List FileInfo) (filters : Filters) : List FileInfo :=
  applyDedupeFilter
    (applyRevisionFilter
      (applyStringFilter
        (applyTagFilter allFiles filters.include_tags filters.exclude_tags)
        filters.include_strings filters.exclude_strings)
      filters)
    filters

instance : Inhabited FileInfo := ⟨⟨[], [], [], 0⟩⟩

/-! ## Claim C8 — neutral filters are the identity -/

/-- C8: with `rev_mode = 'all'`, `dedupe_mode = 'all'` and empty
include/exclude tag and string lists, `applyFilters` returns the input
list unchanged (same entries, same order), and applying it twice
equals applying it once. -/
theorem applyFilters_neutral_identity (l : List FileInfo) (pl : List (List Char)) :
    applyFilters l ⟨[], [], [], [], "all".data, "all".data, pl⟩ = l ∧
    applyFilters (applyFilters l ⟨[], [], [], [], "all".data, "all".data, pl⟩)
        ⟨[], [], [], [], "all".data, "all".data, pl⟩ =
      applyFilters l ⟨[], [], [], [], "all".data, "all".data, pl⟩ := by
  have h : applyFilters l ⟨[], [], [], [], "all".data, "all".data, pl⟩ = l := rfl
  exact ⟨h, by rw [h, h]⟩

/-! ## Claim C9 — `base_name` and `name_raw` invariants -/

theorem mem_dropWhile_of_not (p : Char → Bool) (l : List Char) (c : Char)
    (hc : c ∈ l) (hp : p c = false) : c ∈ l.dropWhile p := by
  have hsplit : l.takeWhile p ++ l.dropWhile p = l := List.takeWhile_append_dropWhile p l
  rw [← hsplit] at hc
  rcases List.mem_append.mp hc with h | h
  · exact absurd (List.mem_takeWhile_imp h) (by simp [hp])
  · exact h

theorem trimL_ne_nil (l : List Char) (c : Char) (hc : c ∈ l) (hp : jsWS c = false) :
    trimL l ≠ [] := by
  intro hnil
  unfold trimL at hnil
  have h1 : c ∈ l.dropWhile jsWS := mem_dropWhile_of_not _ _ _ hc hp
  have h2 : c ∈ (l.dropWhile jsWS).reverse := List.mem_reverse.mpr h1
  have h3 : c ∈ ((l.dropWhile jsWS).reverse.dropWhile jsWS) :=
    mem_dropWhile_of_not _ _ _ h2 hp
  have h4 : c ∈ ((l.dropWhile jsWS).reverse.dropWhile jsWS).reverse :=
    List.mem_reverse.mpr h3
  rw [hnil] at h4
  exact absurd h4 (List.not_mem_nil c)

/-- C9 (amended): `parseFilename` always preserves the raw name
unchanged, and `base_name` is non-empty provided the extensionless
name has at least one non-whitespace character before the leftmost
`(`/`[` tag opener.  (The unamended claim fails: see the
counterexample, a filename beginning with a tag group.) -/
theorem parseFilename_base_name_invariant (s : String) :
    (parseFilename s).name_raw = s.data ∧
    ((∃ c ∈ basePrefix (stripExtL s.data), jsWS c = false) →
      (parseFilename s).base_name ≠ []) := by
  constructor
  · rfl
  · rintro ⟨c, hc, hws⟩
    exact trimL_ne_nil _ c hc hws

/-- C9 witness: a well-formed filename, evaluated through the
theorem. -/
theorem parseFilename_base_name_invariant_witness :
    (∃ c ∈ basePrefix (stripExtL "Game (USA).zip".data), jsWS c = false) ∧
    (parseFilename "Game (USA).zip").name_raw = "Game (USA).zip".data ∧
    (parseFilename "Game (USA).zip").base_name ≠ [] := by
  refine ⟨⟨'G', by decide, by decide⟩, (parseFilename_base_name_invariant _).1,
    (parseFilename_base_name_invariant _).2 ⟨'G', by decide, by decide⟩⟩

/-- C9 counterexample: `"(USA).zip"` is a legal filename, yet its
parsed `base_name` is empty — the invariant as stated (non-empty for
every valid filename) does not hold of the code. -/
theorem parseFilename_empty_base_counterexample :
    (parseFilename "(USA).zip").base_name = [] ∧
    (parseFilename "(USA).zip").name_raw = "(USA).zip".data := by
  exact ⟨by decide, rfl⟩

/-! ## Claim C3 — revision filter on the three-entry catalog -/

/-- C3 counterexample: on the catalog
`{A (USA)(Rev 1), A (USA)(Rev 2), A (Europe)}` with
`revisionMode = highest`, the engine groups by `base_name` only, so
`A (Europe)` (revision 0) is in the same group as `A (USA)(Rev 2)`
(revision 2) and is dropped — contradicting the claimed result set
`{A (USA)(Rev 2), A (Europe)}`. -/
theorem revision_highest_catalog_counterexample :
    mkEntry "A (Europe).zip" ∉
      applyFilters
        [mkEntry "A (USA)(Rev 1).zip", mkEntry "A (USA)(Rev 2).zip", mkEntry "A (Europe).zip"]
        ⟨[], [], [], [], "highest".data, "all".data, []⟩ := by
  with_unfolding_all decide

/-- C3 (amended): the catalog
`{A (USA)(Rev 1), A (USA)(Rev 2), A (Europe)}` under
`revisionMode = highest` yields exactly `{A (USA)(Rev 2)}`: all three
entries share `base_name` `"A"`, and only the group maximum revision
survives. -/
theorem revision_highest_catalog :
    applyFilters
        [mkEntry "A (USA)(Rev 1).zip", mkEntry "A (USA)(Rev 2).zip", mkEntry "A (Europe).zip"]
        ⟨[], [], [], [], "highest".data, "all".data, []⟩ =
      [mkEntry "A (USA)(Rev 2).zip"] := by
  with_unfolding_all decide

/-! ## Claim C4 — ordering of revision ranks -/

/-- The lower-cased extensionless name that `_parseRevision` scans. -/
def lowName (s : String) : List Char :=
  lowerL (stripExtL s.data)

/-- The revision rank the parser assigns to a filename. -/
def revOf (s : String) : ℚ :=
  (parseFilename s).revision

/-- The captured number of a numbered pre-release tag is at most `k`. -/
def capLE (o : Option (List Char)) (k : ℕ) : Bool :=
  match o with
  | some cap => parseIntOr0 cap ≤ k
  | none => true

/-- A filename whose rank comes from the `(Proto)` rule: none of the
higher-priority rules fire and `(proto)` occurs. -/
def protoTagged (s : String) : Prop :=
  versionSearch (lowName s) = none ∧ betaNumSearch (lowName s) = none ∧
  containsSub betaWord (lowName s) = false ∧ alphaNumSearch (lowName s) = none ∧
  containsSub alphaWord (lowName s) = false ∧ containsSub protoWord (lowName s) = true

/-- A filename whose rank comes from one of the Alpha rules. -/
def alphaTagged (s : String) : Prop :=
  versionSearch (lowName s) = none ∧ betaNumSearch (lowName s) = none ∧
  containsSub betaWord (lowName s) = false ∧
  (alphaNumSearch (lowName s) ≠ none ∨ containsSub alphaWord (lowName s) = true)

/-- A filename whose rank comes from one of the Beta rules. -/
def betaTagged (s : String) : Prop :=
  versionSearch (lowName s) = none ∧
  (betaNumSearch (lowName s) ≠ none ∨ containsSub betaWord (lowName s) = true)

theorem revOf_def (s : String) : revOf s = parseRevisionL (stripExtL s.data) := rfl

theorem parseRevisionL_eq_version {n cap : List Char}
    (hv : versionSearch (lowerL n) = some cap) :
    parseRevisionL n = versionValue cap := by
  simp only [parseRevisionL]
  rw [hv]

theorem parseRevisionL_eq_betaNum {n cap : List Char}
    (hv : versionSearch (lowerL n) = none) (hb : betaNumSearch (lowerL n) = some cap) :
    parseRevisionL n = -1 + (parseIntOr0 cap : ℚ) / 100 := by
  simp only [parseRevisionL]
  rw [hv, hb]

theorem parseRevisionL_eq_betaBare {n : List Char}
    (hv : versionSearch (lowerL n) = none) (hb : betaNumSearch (lowerL n) = none)
    (hc : containsSub betaWord (lowerL n) = true) :
    parseRevisionL n = -2 := by
  simp only [parseRevisionL]
  rw [hv, hb, hc]
  simp

theorem parseRevisionL_eq_alphaNum {n cap : List Char}
    (hv : versionSearch (lowerL n) = none) (hb : betaNumSearch (lowerL n) = none)
    (hcb : containsSub betaWord (lowerL n) = false)
    (ha : alphaNumSearch (lowerL n) = some cap) :
    parseRevisionL n = -3 + (parseIntOr0 cap : ℚ) / 100 := by
  simp only [parseRevisionL]
  rw [hv, hb, hcb, ha]
  simp

theorem parseRevisionL_eq_alphaBare {n : List Char}
    (hv : versionSearch (lowerL n) = none) (hb : betaNumSearch (lowerL n) = none)
    (hcb : containsSub betaWord (lowerL n) = false)
    (ha : alphaNumSearch (lowerL n) = none)
    (hca : containsSub alphaWord (lowerL n) = true) :
    parseRevisionL n = -4 := by
  simp only [parseRevisionL]
  rw [hv, hb, hcb, ha, hca]
  simp

/-- Bound on a digit-run value: fewer than `10 ^ length`. -/
theorem parseIntOr0_foldl_lt (l : List Char) (hd : ∀ c ∈ l, isDigitC c = true) :
    ∀ acc : ℕ,
      l.foldl (fun acc c => acc * 10 + (c.toNat - '0'.toNat)) acc < (acc + 1) * 10 ^ l.length := by
  induction l with
  | nil => intro acc; simp
  | cons c r ih =>
    intro acc
    have hc : isDigitC c = true := hd c (List.mem_cons_self c r)
    have hc9 : c.toNat - '0'.toNat ≤ 9 := by
      have h0 : ('0' : Char).toNat = 48 := rfl
      unfold isDigitC at hc
      simp only [decide_eq_true_eq, Bool.and_eq_true] at hc
      omega
    have ih2 := ih (fun x hx => hd x (List.mem_cons_of_mem c hx)) (acc * 10 + (c.toNat - '0'.toNat))
    have hstep : (acc * 10 + (c.toNat - '0'.toNat) + 1) * 10 ^ r.length ≤
        (acc + 1) * 10 ^ (r.length + 1) := by
      have h1 : acc * 10 + (c.toNat - '0'.toNat) + 1 ≤ (acc + 1) * 10 := by omega
      calc (acc * 10 + (c.toNat - '0'.toNat) + 1) * 10 ^ r.length
          ≤ ((acc + 1) * 10) * 10 ^ r.length := Nat.mul_le_mul_right _ h1
        _ = (acc + 1) * 10 ^ (r.length + 1) := by ring
    calc List.foldl (fun acc c => acc * 10 + (c.toNat - '0'.toNat)) acc (c :: r)
        = List.foldl (fun acc c => acc * 10 + (c.toNat - '0'.toNat))
            (acc * 10 + (c.toNat - '0'.toNat)) r := rfl
      _ < (acc * 10 + (c.toNat - '0'.toNat) + 1) * 10 ^ r.length := ih2
      _ ≤ (acc + 1) * 10 ^ (r.length + 1) := hstep
      _ = (acc + 1) * 10 ^ (c :: r).length := by rw [List.length_cons]

theorem parseIntOr0_lt_of_digits (l : List Char) (hd : ∀ c ∈ l, isDigitC c = true) :
    parseIntOr0 l < 10 ^ l.length := by
  have h := parseIntOr0_foldl_lt l hd 0
  simpa [parseIntOr0] using h

/-- A successful date match captures exactly eight digits. -/
theorem dateAt_digits {l cap : List Char} (h : dateAt l = some cap) :
    cap.length = 8 ∧ ∀ c ∈ cap, isDigitC c = true := by
  simp only [dateAt] at h
  split_ifs at h with h1 h2 h3
  · rcases h1 with ⟨e4, a4, -⟩
    rcases h2 with ⟨e2, a2, -⟩
    rcases h3 with ⟨e3, a3⟩
    cases h
    refine ⟨by simp only [List.length_append, e4, e2, e3], ?_⟩
    intro c hc
    rcases List.mem_append.mp hc with hc' | hc'
    · rcases List.mem_append.mp hc' with hc'' | hc''
      · exact List.all_eq_true.mp a4 c hc''
      · exact List.all_eq_true.mp a2 c hc''
    · exact List.all_eq_true.mp a3 c hc'

theorem dateSearch_digits {l cap : List Char} (h : dateSearch l = some cap) :
    cap.length = 8 ∧ ∀ c ∈ cap, isDigitC c = true := by
  induction l with
  | nil => simp [dateSearch] at h
  | cons c r ih =>
    rw [dateSearch] at h
    cases hA : dateAt (c :: r) with
    | some x =>
      rw [hA] at h
      simp only [Option.orElse] at h
      cases h
      exact dateAt_digits hA
    | none =>
      rw [hA] at h
      simp only [Option.orElse] at h
      exact ih h

/-- Every rank the `(Proto)` rules can produce lies strictly below
`-4`. -/
theorem parseRevisionL_proto_lt {n : List Char}
    (hv : versionSearch (lowerL n) = none) (hb : betaNumSearch (lowerL n) = none)
    (hcb : containsSub betaWord (lowerL n) = false)
    (ha : alphaNumSearch (lowerL n) = none)
    (hca : containsSub alphaWord (lowerL n) = false)
    (hp : containsSub protoWord (lowerL n) = true) :
    parseRevisionL n < -4 := by
  simp only [parseRevisionL]
  rw [hv, hb, hcb, ha, hca, hp]
  simp only [Bool.false_eq_true, if_false, if_true]
  cases hdt : dateSearch (lowerL n) with
  | none => norm_num
  | some cap =>
    obtain ⟨hlen, hdig⟩ := dateSearch_digits hdt
    have hlt : parseIntOr0 cap < 10 ^ cap.length := parseIntOr0_lt_of_digits cap hdig
    rw [hlen] at hlt
    have hq : (parseIntOr0 cap : ℚ) < 100000000 := by exact_mod_cast hlt
    have hnn : (0 : ℚ) ≤ (parseIntOr0 cap : ℚ) := Nat.cast_nonneg _
    linarith

/-- C4 (amended).  The claimed order of revision ranks holds with the
two corrections the code forces: the pre-release rules only fire when
no higher-priority rule matched on the lower-cased name, and a
numbered `Beta N`/`Alpha N` tag keeps its band only for `N ≤ 99`
(`Beta 150` parses to `0.5`, see the counterexample).  Stated through
the embedded rule matchers: (1) a Beta-ranked name with a bounded
number is negative; (2) a version-ranked name with positive computed
value is positive; (3) every Proto-ranked name ranks strictly below
every Alpha-ranked name; (4) every Alpha-ranked name with a bounded
number ranks strictly below every Beta-ranked name. -/
theorem revision_ordering_amended :
    (∀ s : String, versionSearch (lowName s) = none →
        capLE (betaNumSearch (lowName s)) 99 = true →
        (betaNumSearch (lowName s) ≠ none ∨ containsSub betaWord (lowName s) = true) →
        revOf s < 0) ∧
    (∀ s : String, ∀ cap, versionSearch (lowName s) = some cap →
        0 < versionValue cap → 0 < revOf s) ∧
    (∀ s t : String, protoTagged s → alphaTagged t → revOf s < revOf t) ∧
    (∀ t u : String, alphaTagged t → capLE (alphaNumSearch (lowName t)) 99 = true →
        betaTagged u → revOf t < revOf u) := by
  have hbetaLB : ∀ u : String, betaTagged u → (-2 : ℚ) ≤ revOf u := by
    rintro u ⟨hv, hb | hc⟩
    · cases hb' : betaNumSearch (lowName u) with
      | none => exact absurd hb' hb
      | some cap =>
        rw [revOf_def, parseRevisionL_eq_betaNum hv hb']
        have : (0 : ℚ) ≤ (parseIntOr0 cap : ℚ) := Nat.cast_nonneg _
        linarith
    · cases hb' : betaNumSearch (lowName u) with
      | none => rw [revOf_def, parseRevisionL_eq_betaBare hv hb' hc]
      | some cap =>
        rw [revOf_def, parseRevisionL_eq_betaNum hv hb']
        have : (0 : ℚ) ≤ (parseIntOr0 cap : ℚ) := Nat.cast_nonneg _
        linarith
  have halphaUB : ∀ t : String, alphaTagged t →
      capLE (alphaNumSearch (lowName t)) 99 = true → revOf t ≤ -201/100 := by
    rintro t ⟨hv, hb, hcb, ha | hca⟩ hcap
    · cases ha' : alphaNumSearch (lowName t) with
      | none => exact absurd ha' ha
      | some cap =>
        rw [revOf_def, parseRevisionL_eq_alphaNum hv hb hcb ha']
        rw [ha'] at hcap
        simp only [capLE, decide_eq_true_eq] at hcap
        have : (parseIntOr0 cap : ℚ) ≤ 99 := by exact_mod_cast hcap
        linarith
    · cases ha' : alphaNumSearch (lowName t) with
      | none =>
        rw [revOf_def, parseRevisionL_eq_alphaBare hv hb hcb ha' hca]
        norm_num
      | some cap =>
        rw [revOf_def, parseRevisionL_eq_alphaNum hv hb hcb ha']
        rw [ha'] at hcap
        simp only [capLE, decide_eq_true_eq] at hcap
        have : (parseIntOr0 cap : ℚ) ≤ 99 := by exact_mod_cast hcap
        linarith
  have halphaLB : ∀ t : String, alphaTagged t → (-4 : ℚ) ≤ revOf t := by
    rintro t ⟨hv, hb, hcb, ha | hca⟩
    · cases ha' : alphaNumSearch (lowName t) with
      | none => exact absurd ha' ha
      | some cap =>
        rw [revOf_def, parseRevisionL_eq_alphaNum hv hb hcb ha']
        have : (0 : ℚ) ≤ (parseIntOr0 cap : ℚ) := Nat.cast_nonneg _
        linarith
    · cases ha' : alphaNumSearch (lowName t) with
      | none => rw [revOf_def, parseRevisionL_eq_alphaBare hv hb hcb ha' hca]
      | some cap =>
        rw [revOf_def, parseRevisionL_eq_alphaNum hv hb hcb ha']
        have : (0 : ℚ) ≤ (parseIntOr0 cap : ℚ) := Nat.cast_nonneg _
        linarith
  refine ⟨?_, ?_, ?_, ?_⟩
  · rintro s hv hcap (hb | hc)
    · cases hb' : betaNumSearch (lowName s) with
      | none => exact absurd hb' hb
      | some cap =>
        rw [revOf_def, parseRevisionL_eq_betaNum hv hb']
        rw [hb'] at hcap
        simp only [capLE, decide_eq_true_eq] at hcap
        have : (parseIntOr0 cap : ℚ) ≤ 99 := by exact_mod_cast hcap
        linarith
    · cases hb' : betaNumSearch (lowName s) with
      | none =>
        rw [revOf_def, parseRevisionL_eq_betaBare hv hb' hc]
        norm_num
      | some cap =>
        rw [revOf_def, parseRevisionL_eq_betaNum hv hb']
        rw [hb'] at hcap
        simp only [capLE, decide_eq_true_eq] at hcap
        have : (parseIntOr0 cap : ℚ) ≤ 99 := by exact_mod_cast hcap
        linarith
  · intro s cap hv hpos
    rw [revOf_def, parseRevisionL_eq_version hv]
    exact hpos
  · rintro s t ⟨hv, hb, hcb, ha, hca, hp⟩ hat
    have hs : revOf s < -4 := by
      rw [revOf_def]; exact parseRevisionL_proto_lt hv hb hcb ha hca hp
    have ht := halphaLB t hat
    linarith
  · intro t u hat hcap hbu
    have h1 := halphaUB t hat hcap
    have h2 := hbetaLB u hbu
    linarith

/-- C4 counterexample: `"Game (Beta 150).zip"` carries a Beta tag, yet
its parsed revision is `1/2`, which is not below `0` — the claim's
"any Beta-tagged filename ranks strictly below 0" fails on the code
(the `-1 + N/100` formula leaves the Beta band as soon as `N ≥ 100`). -/
theorem revision_beta_positive_counterexample :
    "Beta 150".data ∈ (parseFilename "Game (Beta 150).zip").tags ∧
    (parseFilename "Game (Beta 150).zip").revision = 1/2 ∧
    ¬ (parseFilename "Game (Beta 150).zip").revision < 0 := by
  refine ⟨by decide, by with_unfolding_all decide, by with_unfolding_all decide⟩

/-- C4 witness: each conjunct of the amended ordering theorem applied
at a concrete filename. -/
theorem revision_ordering_amended_witness :
    revOf "Game (Beta 2).zip" < 0 ∧ 0 < revOf "Game (Rev 2).zip" ∧
    revOf "Game (Proto).zip" < revOf "Game (Alpha).zip" ∧
    revOf "Game (Alpha 3).zip" < revOf "Game (Beta).zip" := by
  refine ⟨revision_ordering_amended.1 "Game (Beta 2).zip" (by decide) (by decide)
      (Or.inl (by decide)), ?_, ?_, ?_⟩
  · exact revision_ordering_amended.2.1 "Game (Rev 2).zip" ['2'] (by decide)
      (by with_unfolding_all decide)
  · exact revision_ordering_amended.2.2.1 "Game (Proto).zip" "Game (Alpha).zip"
      ⟨by decide, by decide, by decide, by decide, by decide, by decide⟩
      ⟨by decide, by decide, by decide, Or.inr (by decide)⟩
  · exact revision_ordering_amended.2.2.2 "Game (Alpha 3).zip" "Game (Beta).zip"
      ⟨by decide, by decide, by decide, Or.inl (by decide)⟩ (by decide)
      ⟨by decide, Or.inr (by decide)⟩

/-! ## Claim C1 — priority deduplication -/

theorem foldl_max_le_init (pl : List (List Char)) (l : List FileInfo) :
    ∀ b : ℤ, b ≤ List.foldl (fun m f => max m ((prioScore pl f : ℤ))) b l := by
  induction l with
  | nil => intro b; exact le_refl b
  | cons f r ih =>
    intro b
    exact le_trans (le_max_left b _) (ih (max b (prioScore pl f : ℤ)))

theorem foldl_max_mem_le (pl : List (List Char)) (l : List FileInfo) :
    ∀ b : ℤ, ∀ f ∈ l,
      (prioScore pl f : ℤ) ≤ List.foldl (fun m g => max m ((prioScore pl g : ℤ))) b l := by
  induction l with
  | nil => intro b f hf; exact absurd hf (List.not_mem_nil f)
  | cons g r ih =>
    intro b f hf
    rcases List.mem_cons.mp hf with rfl | hf'
    · exact le_trans (le_max_right b _) (foldl_max_le_init pl r _)
    · exact ih _ f hf'

theorem foldl_max_eq_init (pl : List (List Char)) (l : List FileInfo) :
    ∀ b : ℤ, (∀ f ∈ l, (prioScore pl f : ℤ) ≤ b) →
      List.foldl (fun m f => max m ((prioScore pl f : ℤ))) b l = b := by
  induction l with
  | nil => intro b _; rfl
  | cons f r ih =>
    intro b hb
    have h1 : max b ((prioScore pl f : ℤ)) = b :=
      max_eq_left (hb f (List.mem_cons_self f r))
    rw [List.foldl_cons, h1]
    exact ih b (fun g hg => hb g (List.mem_cons_of_mem f hg))

theorem foldl_max_attained (pl : List (List Char)) (l : List FileInfo) :
    ∀ b : ℤ, List.foldl (fun m f => max m ((prioScore pl f : ℤ))) b l = b ∨
      ∃ f ∈ l, List.foldl (fun m f => max m ((prioScore pl f : ℤ))) b l = (prioScore pl f : ℤ) := by
  induction l with
  | nil => intro b; exact Or.inl rfl
  | cons f r ih =>
    intro b
    rw [List.foldl_cons]
    rcases ih (max b ((prioScore pl f : ℤ))) with h | ⟨g, hg, hgv⟩
    · rcases max_cases b ((prioScore pl f : ℤ)) with ⟨he, -⟩ | ⟨he, -⟩
      · exact Or.inl (by rw [h, he])
      · exact Or.inr ⟨f, List.mem_cons_self f r, by rw [h, he]⟩
    · exact Or.inr ⟨g, List.mem_cons_of_mem f hg, hgv⟩

/-- The running `(bestScore, bestFile)` fold of `_applyDedupeFilter`:
its first component is the running maximum, and once the maximum
exceeds the initial bound the second component is the **first** entry
attaining the maximum. -/
theorem bestFold_go (pl : List (List Char)) (l : List FileInfo) :
    ∀ (b : ℤ) (fo : Option FileInfo),
      (List.foldl
          (fun st f => if (prioScore pl f : ℤ) > st.1 then ((prioScore pl f : ℤ), some f) else st)
          (b, fo) l).1 =
        List.foldl (fun m f => max m ((prioScore pl f : ℤ))) b l ∧
      ((∀ f ∈ l, (prioScore pl f : ℤ) ≤ b) →
        (List.foldl
            (fun st f => if (prioScore pl f : ℤ) > st.1 then ((prioScore pl f : ℤ), some f) else st)
            (b, fo) l).2 = fo) ∧
      (List.foldl (fun m f => max m ((prioScore pl f : ℤ))) b l > b →
        (List.foldl
            (fun st f => if (prioScore pl f : ℤ) > st.1 then ((prioScore pl f : ℤ), some f) else st)
            (b, fo) l).2 =
          (l.filter (fun f =>
            (prioScore pl f : ℤ) = List.foldl (fun m f => max m ((prioScore pl f : ℤ))) b l)).head?) := by
  induction l with
  | nil =>
    intro b fo
    exact ⟨rfl, fun _ => rfl, fun h => absurd h (lt_irrefl b)⟩
  | cons f r ih =>
    intro b fo
    by_cases hs : (prioScore pl f : ℤ) > b
    · have hstep :
          (List.foldl
            (fun st f => if (prioScore pl f : ℤ) > st.1 then ((prioScore pl f : ℤ), some f) else st)
            (b, fo) (f :: r)) =
          (List.foldl
            (fun st f => if (prioScore pl f : ℤ) > st.1 then ((prioScore pl f : ℤ), some f) else st)
            ((prioScore pl f : ℤ), some f) r) := by
        rw [List.foldl_cons, if_pos hs]
      have hmax : max b ((prioScore pl f : ℤ)) = (prioScore pl f : ℤ) :=
        max_eq_right (le_of_lt hs)
      have hM :
          List.foldl (fun m g => max m ((prioScore pl g : ℤ))) b (f :: r) =
          List.foldl (fun m g => max m ((prioScore pl g : ℤ))) ((prioScore pl f : ℤ)) r := by
        rw [List.foldl_cons, hmax]
      obtain ⟨ih1, ih2, ih3⟩ := ih ((prioScore pl f : ℤ)) (some f)
      refine ⟨by rw [hstep, ih1, hM], ?_, ?_⟩
      · intro hall
        exact absurd (hall f (List.mem_cons_self f r)) (not_le.mpr hs)
      · intro hMgt
        by_cases hr : ∀ g ∈ r, (prioScore pl g : ℤ) ≤ (prioScore pl f : ℤ)
        · have hMeq :
              List.foldl (fun m g => max m ((prioScore pl g : ℤ))) b (f :: r) =
              (prioScore pl f : ℤ) := by
            rw [hM]; exact foldl_max_eq_init pl r _ hr
          rw [hstep, ih2 hr, hMeq]
          rw [List.filter_cons_of_pos (by simp)]
          simp
        · push_neg at hr
          obtain ⟨g, hg, hgt⟩ := hr
          have hMgtf :
              List.foldl (fun m g => max m ((prioScore pl g : ℤ))) b (f :: r) >
              (prioScore pl f : ℤ) := by
            rw [hM]
            exact lt_of_lt_of_le hgt (foldl_max_mem_le pl r _ g hg)
          have hne : ¬ ((prioScore pl f : ℤ) =
              List.foldl (fun m g => max m ((prioScore pl g : ℤ))) b (f :: r)) :=
            ne_of_lt hMgtf
          rw [hstep, ih3 (by rw [← hM]; exact hMgtf)]
          rw [List.filter_cons_of_neg (by simpa using hne)]
          rw [hM]
    · have hstep :
          (List.foldl
            (fun st f => if (prioScore pl f : ℤ) > st.1 then ((prioScore pl f : ℤ), some f) else st)
            (b, fo) (f :: r)) =
          (List.foldl
            (fun st f => if (prioScore pl f : ℤ) > st.1 then ((prioScore pl f : ℤ), some f) else st)
            (b, fo) r) := by
        rw [List.foldl_cons, if_neg hs]
      have hmax : max b ((prioScore pl f : ℤ)) = b := max_eq_left (not_lt.mp hs)
      have hM :
          List.foldl (fun m g => max m ((prioScore pl g : ℤ))) b (f :: r) =
          List.foldl (fun m g => max m ((prioScore pl g : ℤ))) b r := by
        rw [List.foldl_cons, hmax]
      obtain ⟨ih1, ih2, ih3⟩ := ih b fo
      refine ⟨by rw [hstep, ih1, hM], ?_, ?_⟩
      · intro hall
        rw [hstep]
        exact ih2 (fun g hg => hall g (List.mem_cons_of_mem f hg))
      · intro hMgt
        rw [hM] at hMgt
        have hne : ¬ ((prioScore pl f : ℤ) =
            List.foldl (fun m g => max m ((prioScore pl g : ℤ))) b (f :: r)) := by
          rw [hM]
          exact ne_of_lt (lt_of_le_of_lt (not_lt.mp hs) hMgt)
        rw [hstep, ih3 hMgt]
        rw [List.filter_cons_of_neg (by simpa using hne)]
        rw [hM]

/-- Spec side of the amended claim C1, written from its words: within
a group, compute the maximum priority score (folding from `-1` as the
code does — every score is a natural number, so this is the group
maximum); keep all max-scoring entries that carry a
`Disc `/`Cart `/`Side ` tag if there are any, and otherwise keep only
the **first** max-scoring entry. -/
def dedupeSpecGroup (pl : List (List Char)) : List FileInfo → List FileInfo
  | [] => []
  | g0 :: rest =>
    let M := List.foldl (fun m f => max m ((prioScore pl f : ℤ))) (-1) (g0 :: rest)
    let winners := (g0 :: rest).filter (fun f => (prioScore pl f : ℤ) = M)
    if winners.any hasDisc then winners.filter hasDisc else winners.take 1

theorem dedupeGroup_eq_spec (pl : List (List Char)) (g : List FileInfo) :
    dedupeGroup pl g = dedupeSpecGroup pl g := by
  cases g with
  | nil => rfl
  | cons g0 rest =>
    obtain ⟨h1, -, h3⟩ := bestFold_go pl (g0 :: rest) (-1) none
    have hMgt : List.foldl (fun m f => max m ((prioScore pl f : ℤ))) (-1) (g0 :: rest) > -1 := by
      have h0 : ((prioScore pl g0 : ℤ)) ≤
          List.foldl (fun m f => max m ((prioScore pl f : ℤ))) (-1) (g0 :: rest) :=
        foldl_max_mem_le pl (g0 :: rest) (-1) g0 (List.mem_cons_self g0 rest)
      have hnn : (0 : ℤ) ≤ (prioScore pl g0 : ℤ) := Int.ofNat_nonneg _
      omega
    have hsnd := h3 hMgt
    have hwin :
        ((g0 :: rest).filter (fun f =>
          (prioScore pl f : ℤ) =
            List.foldl (fun m f => max m ((prioScore pl f : ℤ))) (-1) (g0 :: rest))) ≠ [] := by
      rcases foldl_max_attained pl (g0 :: rest) (-1) with he | ⟨f, hf, hfv⟩
      · rw [he] at hMgt; exact absurd hMgt (lt_irrefl _)
      · intro hnil
        have hmem : f ∈ (g0 :: rest).filter (fun f =>
            (prioScore pl f : ℤ) =
              List.foldl (fun m f => max m ((prioScore pl f : ℤ))) (-1) (g0 :: rest)) :=
          List.mem_filter.mpr ⟨hf, by simpa using hfv.symm⟩
        rw [hnil] at hmem
        exact absurd hmem (List.not_mem_nil f)
    simp only [dedupeGroup, dedupeSpecGroup, bestFold] at h1 hsnd ⊢
    simp only [h1, hsnd]
    cases hw : ((g0 :: rest).filter (fun f =>
        (prioScore pl f : ℤ) =
          List.foldl (fun m f => max m ((prioScore pl f : ℤ))) (-1) (g0 :: rest))) with
    | nil => exact absurd hw hwin
    | cons w ws =>
      by_cases hd : (w :: ws).any hasDisc = true
      · have hne : (w :: ws).filter hasDisc ≠ [] := by
          obtain ⟨x, hx, hxd⟩ := List.any_eq_true.mp hd
          exact List.ne_nil_of_mem (List.mem_filter.mpr ⟨hx, hxd⟩)
        rw [if_pos hne, if_pos hd]
      · have hfd : (w :: ws).filter hasDisc = [] := by
          rw [List.filter_eq_nil_iff]
          intro a ha had
          exact hd (List.any_eq_true.mpr ⟨a, ha, had⟩)
        rw [if_neg (by simp [hfd]), if_neg hd]
        simp

/-- C1 (amended): with `dedupe_mode = 'priority'`, within each
`base_name` group (in first-seen order) the dedupe stage keeps all
max-scoring entries carrying a `Disc `/`Cart `/`Side ` tag when at
least one max-scoring entry carries one, and otherwise keeps only the
**first** max-scoring entry — not all tying entries, as the original
claim stated (see the counterexample). -/
theorem dedupe_priority_first_max (l : List FileInfo)
    (it et istr estr : List (List Char)) (rm : List Char) (pl : List (List Char)) :
    applyDedupeFilter l ⟨it, et, istr, estr, rm, "priority".data, pl⟩ =
      (groupByBase l).flatMap (fun g => dedupeSpecGroup pl g.2) := by
  have h0 : applyDedupeFilter l ⟨it, et, istr, estr, rm, "priority".data, pl⟩ =
      (groupByBase l).flatMap (fun g => dedupeGroup pl g.2) := rfl
  rw [h0]
  have hfun : (fun g : List Char × List FileInfo => dedupeGroup pl g.2) =
      (fun g : List Char × List FileInfo => dedupeSpecGroup pl g.2) :=
    funext (fun g => dedupeGroup_eq_spec pl g.2)
  rw [hfun]

/-- C1 counterexample: two entries of the same `base_name` both score
`0` (the group maximum) against an empty priority list and neither
carries a disc tag; the claim says both are kept, but the code keeps
only the first. -/
theorem dedupe_priority_tie_counterexample :
    applyDedupeFilter [mkEntry "A (Europe).zip", mkEntry "A (World).zip"]
        ⟨[], [], [], [], [], "priority".data, []⟩ =
      [mkEntry "A (Europe).zip"] ∧
    mkEntry "A (World).zip" ∉
      applyDedupeFilter [mkEntry "A (Europe).zip", mkEntry "A (World).zip"]
        ⟨[], [], [], [], [], "priority".data, []⟩ := by
  refine ⟨by with_unfolding_all decide, by with_unfolding_all decide⟩

/-! ## Claim C6 — TransferScanner local-state classification -/

inductive ScanClass where
  | skippedDownloaded
  | resume (downloadedBytes : ℕ)
  | fresh
deriving DecidableEq, Repr

/-- The local-file branch of `DownloadInfoService.getDownloadInfo`
(after a successful HEAD for a file not already extracted):
`remoteSize` is `parseInt(headers['content-length'] || '0', 10)` (an
unparsable header behaves like `0` in both `>` comparisons), and
`localSize` is `fs.statSync(targetPath).size` when
`fs.existsSync(targetPath)` holds. -/
def classifyLocal (localExists : Bool) (localSize remoteSize : ℕ) : ScanClass :=
  if localExists then
    if 0 < remoteSize ∧ localSize = remoteSize then ScanClass.skippedDownloaded
    else if 0 < remoteSize ∧ localSize < remoteSize then ScanClass.resume localSize
    else ScanClass.fresh
  else ScanClass.fresh

/-- C6 (amended): a byte-identical local file is classified
`skippedBecauseDownloaded` **provided the remote size is positive**
(the code guards every comparison with `remoteSize > 0`; see the
counterexample for the zero-size case); a smaller local file is
queued for resume carrying its current size; a missing local file is
queued fresh. -/
theorem scanner_classification (localSize remoteSize : ℕ) :
    (0 < remoteSize → classifyLocal true remoteSize remoteSize = ScanClass.skippedDownloaded) ∧
    (localSize < remoteSize → classifyLocal true localSize remoteSize = ScanClass.resume localSize) ∧
    classifyLocal false localSize remoteSize = ScanClass.fresh := by
  refine ⟨?_, ?_, rfl⟩
  · intro h
    simp [classifyLocal, h]
  · intro h
    have h1 : ¬ (0 < remoteSize ∧ localSize = remoteSize) := by omega
    have h2 : 0 < remoteSize ∧ localSize < remoteSize := by omega
    simp [classifyLocal, h1, h2]
    omega

/-- C6 witness: the three branches at concrete sizes. -/
theorem scanner_classification_witness :
    classifyLocal true 10 10 = ScanClass.skippedDownloaded ∧
    classifyLocal true 4 10 = ScanClass.resume 4 ∧
    classifyLocal false 4 10 = ScanClass.fresh :=
  ⟨(scanner_classification 10 10).1 (by decide), (scanner_classification 4 10).2.1 (by decide),
    (scanner_classification 4 10).2.2⟩

/-- C6 counterexample: a zero-byte local file whose remote
Content-Length is `0` is byte-identical to the remote, yet the code
queues it as a fresh download instead of `skippedBecauseDownloaded`
(the `remoteSize > 0` guard fails). -/
theorem scanner_zero_size_counterexample :
    classifyLocal true 0 0 = ScanClass.fresh ∧
    classifyLocal true 0 0 ≠ ScanClass.skippedDownloaded :=
  ⟨rfl, by decide⟩

/-! ## Claim C2 — resumed transfers

A file-system state maps paths to byte lists. -/

abbrev FS := List (String × List ℕ)

def fsLookup : FS → String → Option (List ℕ)
  | [], _ => none
  | (q, c) :: r, p => if q = p then some c else fsLookup r p

def fsErase : FS → String → FS
  | [], _ => []
  | pc :: r, p => if pc.1 = p then fsErase r p else pc :: fsErase r p

def fsSet (fs : FS) (p : String) (c : List ℕ) : FS :=
  (p, c) :: fsErase fs p

structure TransferStep where
  rangeHeader : Option String
  fs : FS
deriving DecidableEq, Repr

/-- One non-skipped file transfer of `DownloadService.downloadFiles`
along the successful-stream path: with `downloadedBytes > 0` a
`Range: bytes=<downloadedBytes>-` header is sent (the remote then
serves `remote.drop downloadedBytes`) and the `.part` file is opened
with append (`'a'`), otherwise no range header and truncate (`'w'`);
the received bytes are written to `targetPath + ".part"`, which on
`finish` is renamed onto `targetPath`, replacing any file there. -/
def downloadOneFile (fs : FS) (targetPath : String) (downloadedBytes : ℕ)
    (remote : List ℕ) : TransferStep :=
  let partPath := targetPath ++ ".part"
  let header :=
    if 0 < downloadedBytes then some ("bytes=" ++ toString downloadedBytes ++ "-") else none
  let initContent := if 0 < downloadedBytes then (fsLookup fs partPath).getD [] else []
  let newPart := initContent ++ remote.drop downloadedBytes
  { rangeHeader := header
    fs := fsSet (fsErase (fsSet fs partPath newPart) partPath) targetPath newPart }

/-- C2 is a code bug.  A 10-byte remote file with its first 4 bytes
already at the final target path is marked for resume by the scanner
(`downloadedBytes = 4`), and the engine does send
`Range: bytes=4-` — but it appends the received tail to a fresh
`.part` file and renames that over the target, so the finished file
holds only the 6 tail bytes instead of the complete 10-byte content
the claim (and the scanner's accounting) promises. -/
theorem resume_discards_existing_bytes :
    classifyLocal true 4 10 = ScanClass.resume 4 ∧
    (downloadOneFile [("dir/file.zip", (List.range 10).take 4)] "dir/file.zip" 4
        (List.range 10)).rangeHeader = some "bytes=4-" ∧
    ((fsLookup (downloadOneFile [("dir/file.zip", (List.range 10).take 4)] "dir/file.zip" 4
        (List.range 10)).fs "dir/file.zip").getD []).length = 6 ∧
    (fsLookup (downloadOneFile [("dir/file.zip", (List.range 10).take 4)] "dir/file.zip" 4
        (List.range 10)).fs "dir/file.zip").getD [] ≠ List.range 10 := by
  refine ⟨rfl, by decide, by decide, by decide⟩

/-! ## Claims C5 and C10 — the orchestrator (`DownloadManager.startDownload`)

The scan outcome, the per-file network outcomes and the cancellation
schedule are the run's environment.  Sizes, progress events and the
extraction phase are omitted: none of them write to `allSkippedFiles`,
`summaryMessage`, `wasCancelled` or `partialFile`, and the single
`download-complete` send at the end of `startDownload` is the only
completion event in the source. -/

inductive ScanSkip where
  | entry (name : String) (extracted downloaded : Bool)
  | failMarker (text : String)
deriving DecidableEq, Repr

structure TFile where
  name : String
  skip : Bool
  netOk : Bool
deriving DecidableEq, Repr

structure ScanOut where
  filesToDownload : List TFile
  skippedFiles : List ScanSkip
  extractedCount : ℕ
  downloadedCount : ℕ
deriving DecidableEq, Repr

structure DlErr where
  msg : String
  partialFile : Option String
deriving DecidableEq, Repr

structure DlRes where
  skippedFiles : List String
  downloadedFiles : List String
deriving DecidableEq, Repr

/-- The cancellation flag becomes observable at file index `i`
(`between = true`: at the loop-top check before the file;
`between = false`: inside the file's stream callback). -/
def cancelHit (c : Option (ℕ × Bool)) (i : ℕ) (between : Bool) : Bool :=
  match c with
  | some (n, b) => n = i ∧ b = between
  | none => false

/-- The sequential loop of `DownloadService.downloadFiles`: the
cancellation check before each file, the `skip` short-circuit, then
either a mid-stream cancellation (the partial `.part` file is deleted
and its identity attached to the error), a per-file network failure
(name recorded, loop continues), or success. -/
def dlGo (cancel : Option (ℕ × Bool)) :
    List TFile → ℕ → List String → List String → Except DlErr DlRes
  | [], _, sk, dl => .ok ⟨sk, dl⟩
  | f :: rest, i, sk, dl =>
    if cancelHit cancel i true then .error ⟨"CANCELLED_BETWEEN_FILES", none⟩
    else if f.skip then dlGo cancel rest (i + 1) sk dl
    else if cancelHit cancel i false then
      .error ⟨"CANCELLED_MID_FILE", some (f.name ++ ".part")⟩
    else if f.netOk then dlGo cancel rest (i + 1) sk (dl ++ [f.name])
    else dlGo cancel rest (i + 1) (sk ++ [f.name]) dl

def downloadFilesModel (files : List TFile) (cancel : Option (ℕ × Bool)) :
    Except DlErr DlRes :=
  dlGo cancel files 0 [] []

/-- `scanResult.skippedFiles.filter(f => f.skippedBecauseExtracted).map(f => f.name)`:
the `"... (Scan failed)"` marker strings have no
`skippedBecauseExtracted` property and drop out, as do entries skipped
because already downloaded. -/
def extractedNames (sks : List ScanSkip) : List String :=
  sks.filterMap (fun sk =>
    match sk with
    | .entry n ext _ => if ext then some n else none
    | .failMarker _ => none)

def failedNames (files : List TFile) : List String :=
  (files.filter (fun f => !f.skip && !f.netOk)).map (fun f => f.name)

def okNames (files : List TFile) : List String :=
  (files.filter (fun f => !f.skip && f.netOk)).map (fun f => f.name)

structure CompletionEvent where
  message : String
  skippedFiles : List String
  wasCancelled : Bool
  partialFile : Option String
deriving DecidableEq, Repr

structure OrchOut where
  events : List CompletionEvent
  loggedSummary : Option String
deriving DecidableEq, Repr

/-- The catch block of `startDownload`: a message starting with
`CANCELLED_` keeps the summary empty, anything else becomes
`Error: <message>`. -/
def mkCatchSummary (m : String) : String :=
  if "CANCELLED_".data.isPrefixOf m.data then "" else "Error: " ++ m

/-- The summary chosen when the scan leaves nothing to download. -/
def emptySummary (sr : ScanOut) (filesCount : ℕ) : String :=
  if sr.extractedCount = filesCount then "All files already extracted!"
  else if sr.downloadedCount = filesCount then "All files already downloaded!"
  else "All matched files already exist locally. Nothing to download."

/-- `DownloadManager.startDownload`: the try block (scan, the
`isCancelled` re-check, the extracted-skip name collection, the
transfer), the catch block (cancellation vs generic error), the
post-processing that re-clears the summary whenever anything was
cancelled, the conditional summary log, and the single
`download-complete` event. -/
def startDownloadModel (scanOutcome : Except String ScanOut) (cancelledAfterScan : Bool)
    (cancel : Option (ℕ × Bool)) (userCancelled : Bool) (filesCount : ℕ) : OrchOut :=
  let r :=
    match scanOutcome with
    | .error m => (([] : List String), (none : Option String), mkCatchSummary m, true)
    | .ok sr =>
      if cancelledAfterScan then ([], none, mkCatchSummary "CANCELLED_DURING_SCAN", true)
      else
        let base := extractedNames sr.skippedFiles
        if sr.filesToDownload.length = 0 then (base, none, emptySummary sr filesCount, false)
        else
          match downloadFilesModel sr.filesToDownload cancel with
          | .ok res => (base ++ res.skippedFiles, none, "", false)
          | .error e => (base, e.partialFile, mkCatchSummary e.msg, true)
  let wasC := r.2.2.2 || userCancelled
  let summary := if r.2.2.2 || userCancelled then "" else r.2.2.1
  { events := [⟨"", r.1, wasC, r.2.1⟩]
    loggedSummary := if summary ≠ "" then some summary else none }

/-- C5 is a code bug in its first half: a scan error that is no
cancellation (here `"ENOTFOUND"`) does flow into exactly one
completion event — but the catch block sets `wasCancelled = true`
unconditionally, so the post-processing erases the computed
`Error: ENOTFOUND` summary (nothing is logged) and the event reports
the run as **cancelled**. -/
theorem scan_error_reported_as_cancelled :
    startDownloadModel (.error "ENOTFOUND") false none false 3 =
      { events := [⟨"", [], true, none⟩], loggedSummary := none } := by
  decide

/-- C10 (amended): in every run whose scan succeeds and in which no
cancellation occurs, the single completion event's `skippedFiles` is
exactly the extracted-skip names followed by the names of files whose
GET failed; already-downloaded skips and `"(Scan failed)"` markers
never appear.  (In a cancelled run the transfer failures collected so
far are lost with the thrown cancellation — see the counterexample.) -/
theorem completion_event_skipped_files (sr : ScanOut) (n : ℕ) :
    (startDownloadModel (.ok sr) false none false n).events =
      [⟨"", extractedNames sr.skippedFiles ++ failedNames sr.filesToDownload, false, none⟩] := by
  have hdl : ∀ (files : List TFile) (i : ℕ) (sk dl : List String),
      dlGo none files i sk dl = .ok ⟨sk ++ failedNames files, dl ++ okNames files⟩ := by
    intro files
    induction files with
    | nil => intro i sk dl; simp [dlGo, failedNames, okNames]
    | cons f rest ih =>
      intro i sk dl
      by_cases hs : f.skip
      · simp [dlGo, cancelHit, hs, ih, failedNames, okNames]
      · by_cases hn : f.netOk
        · simp [dlGo, cancelHit, hs, hn, ih, failedNames, okNames]
        · simp [dlGo, cancelHit, hs, hn, ih, failedNames, okNames]
  by_cases hf : sr.filesToDownload.length = 0
  · have he : sr.filesToDownload = [] := List.length_eq_zero.mp hf
    simp [startDownloadModel, hf, he, failedNames]
  · simp [startDownloadModel, hf, downloadFilesModel, hdl]

/-- C10 counterexample: `F.zip`'s GET fails, then the user cancels
before `G.zip`; the thrown between-files cancellation discards the
transfer's `skippedFiles`, so the completion event lists only the
extracted-skip name and omits `F.zip`, whose download did fail during
the transfer phase of this very run. -/
theorem completion_event_drops_failed_counterexample :
    (startDownloadModel
        (.ok ⟨[⟨"F.zip", false, false⟩, ⟨"G.zip", false, true⟩],
          [.entry "E.zip" true false], 1, 0⟩)
        false (some (1, true)) true 3).events =
      [⟨"", ["E.zip"], true, none⟩] := by
  decide

/-! ## Claim C7 — extraction cancellation cleanup

`DownloadManager.extractFiles`, over the same file-system state.  A
zip entry is a name plus its uncompressed bytes; directory entries are
the names ending in `/` (the source creates directories for them and
never writes a file, with or without content).  The two read-only
counting passes are omitted.  The cancellation flag is a function of
the processing position: `cancAt (some (i, jc)) k j` says the flag is
visible while archive `k` is at entry index `j` once `(k, j)` is
lexicographically at or past `(i, jc)`. -/

structure ZEntry where
  name : String
  content : List ℕ
deriving DecidableEq, Repr

structure Archive where
  name : String
  path : String
  entries : List ZEntry
deriving DecidableEq, Repr

/-- `/\/$/.test(name)` -/
def endsWithSlash (s : String) : Bool :=
  match s.data.getLast? with
  | some '/' => true
  | _ => false

def lowerS (s : String) : String :=
  ⟨lowerL s.data⟩

def endsWithS (suffix s : String) : Bool :=
  suffix.data.isSuffixOf s.data

def stripExtS (s : String) : String :=
  ⟨stripExtL s.data⟩

/-- `path.dirname` (POSIX, for the non-root paths used here). -/
def dirname (p : String) : String :=
  if ('/' : Char) ∈ p.data then ⟨((p.data.reverse.dropWhile (fun c => ¬ c = '/')).drop 1).reverse⟩
  else "."

/-- `path.join` on the already-clean segments used here. -/
def joinPath (a b : String) : String :=
  a ++ "/" ++ b

def cancAt (c : Option (ℕ × ℕ)) (k j : ℕ) : Bool :=
  match c with
  | some (i, jc) => decide (i < k) || (decide (i = k) && decide (jc ≤ j))
  | none => false

/-- `createSubfolder` strips one leading `<archiveBaseName>/` from the
entry name. -/
def entryFinalName (archiveBase : String) (csf : Bool) (entryName : String) : String :=
  if csf ∧ (archiveBase ++ "/").data.isPrefixOf entryName.data then
    ⟨entryName.data.drop (archiveBase.data.length + 1)⟩
  else entryName

/-- Extraction root for one archive. -/
def archiveExtractPath (targetDir : String) (csf msf : Bool) (a : Archive) : String :=
  if msf then dirname a.path
  else if csf then joinPath targetDir (stripExtS a.name)
  else targetDir

def eraseAll (fs : FS) (ps : List String) : FS :=
  ps.foldl fsErase fs

/-- The per-entry loop: cancellation check first, directory entries
only create directories, file entries are written to disk and recorded
in `extractedFiles` (the cleanup list). -/
def procEntries (canc : Option (ℕ × ℕ)) (k : ℕ) (ep base : String) (csf : Bool) :
    List ZEntry → ℕ → FS → List String → FS × List String × Bool
  | [], j, fs, acc => (fs, acc, cancAt canc k j)
  | e :: rest, j, fs, acc =>
    if cancAt canc k j then (fs, acc, true)
    else
      let fin := entryFinalName base csf e.name
      if endsWithSlash fin then procEntries canc k ep base csf rest (j + 1) fs acc
      else
        procEntries canc k ep base csf rest (j + 1)
          (fsSet fs (joinPath ep fin) e.content) (acc ++ [joinPath ep fin])

/-- One archive of the extraction loop: a missing archive is skipped;
otherwise its entries are processed, the source archive is deleted
only if no cancellation was seen, and on cancellation every file
written for this archive is deleted (best-effort cleanup in the
`finally`). -/
def procArchive (canc : Option (ℕ × ℕ)) (k : ℕ) (targetDir : String) (csf msf : Bool)
    (a : Archive) (fs : FS) : FS × Bool :=
  if (fsLookup fs a.path).isNone then (fs, cancAt canc k 0)
  else
    let res := procEntries canc k (archiveExtractPath targetDir csf msf a) (stripExtS a.name)
      csf a.entries 0 fs []
    let fs2 := if res.2.2 then res.1 else fsErase res.1 a.path
    let fs3 := if res.2.2 ∧ res.2.1 ≠ [] then eraseAll fs2 res.2.1 else fs2
    (fs3, res.2.2)

/-- The archive loop, which breaks once the flag has been seen. -/
def procArchives (canc : Option (ℕ × ℕ)) (targetDir : String) (csf msf : Bool) :
    List Archive → ℕ → FS → FS
  | [], _, fs => fs
  | a :: rest, k, fs =>
    let r := procArchive canc k targetDir csf msf a fs
    if r.2 then r.1 else procArchives canc targetDir csf msf rest (k + 1) r.1

def upsertArchive : List Archive → Archive → List Archive
  | [], a => [a]
  | b :: r, a => if b.path = a.path then a :: r else b :: upsertArchive r a

/-- The `uniquePaths` map: keyed by path, later duplicates replace the
stored value in place, falsy (empty) paths are dropped. -/
def uniqueArchives (l : List Archive) : List Archive :=
  l.foldl (fun acc a => if a.path = "" then acc else upsertArchive acc a) []

/-- `DownloadManager.extractFiles` on the file-system state: filter to
`.zip` names, de-duplicate by path, then run the archive loop. -/
def extractFilesModel (files : List Archive) (targetDir : String) (csf msf : Bool)
    (canc : Option (ℕ × ℕ)) (fs : FS) : FS :=
  procArchives canc targetDir csf msf
    (uniqueArchives (files.filter (fun f => endsWithS ".zip" (lowerS f.name)))) 0 fs

/-- The sequence of target paths the file entries of a list of zip
entries are written to. -/
def entryTargetsOf (ep base : String) (csf : Bool) (entries : List ZEntry) : List String :=
  entries.filterMap (fun e =>
    let fin := entryFinalName base csf e.name
    if endsWithSlash fin then none else some (joinPath ep fin))

def entryTargets (targetDir : String) (csf msf : Bool) (a : Archive) : List String :=
  entryTargetsOf (archiveExtractPath targetDir csf msf a) (stripExtS a.name) csf a.entries

/-- Writing the file entries of an uncancelled pass, state only. -/
def writeEntries (ep base : String) (csf : Bool) : List ZEntry → FS → FS
  | [], fs => fs
  | e :: rest, fs =>
    let fin := entryFinalName base csf e.name
    if endsWithSlash fin then writeEntries ep base csf rest fs
    else writeEntries ep base csf rest (fsSet fs (joinPath ep fin) e.content)

theorem fsLookup_fsErase_eq (fs : FS) (p : String) : fsLookup (fsErase fs p) p = none := by
  induction fs with
  | nil => rfl
  | cons pc r ih =>
    by_cases h : pc.1 = p
    · simp [fsErase, h, ih]
    · simp [fsErase, fsLookup, h, ih]

theorem fsLookup_fsErase_ne (fs : FS) {q p : String} (h : ¬ q = p) :
    fsLookup (fsErase fs q) p = fsLookup fs p := by
  have h' : ¬ p = q := fun he => h he.symm
  induction fs with
  | nil => rfl
  | cons pc r ih =>
    by_cases hq : pc.1 = q
    · have hnp : ¬ pc.1 = p := by rw [hq]; exact h
      simp [fsErase, fsLookup, hq, hnp, ih, h, h']
    · by_cases hp : pc.1 = p
      · simp [fsErase, fsLookup, hq, hp, h, h']
      · simp [fsErase, fsLookup, hq, hp, ih, h, h']

theorem fsLookup_fsSet_eq (fs : FS) (p : String) (c : List ℕ) :
    fsLookup (fsSet fs p c) p = some c := by
  simp [fsSet, fsLookup]

theorem fsLookup_fsSet_ne (fs : FS) (c : List ℕ) {q p : String} (h : ¬ q = p) :
    fsLookup (fsSet fs q c) p = fsLookup fs p := by
  simp [fsSet, fsLookup, h, fsLookup_fsErase_ne fs h]

theorem fsLookup_eraseAll_not_mem (ps : List String) :
    ∀ (fs : FS) (p : String), p ∉ ps → fsLookup (eraseAll fs ps) p = fsLookup fs p := by
  induction ps with
  | nil => intro fs p _; rfl
  | cons q r ih =>
    intro fs p hp
    have h1 : ¬ q = p := fun he => hp (by rw [he]; exact List.mem_cons_self p r)
    have h2 : p ∉ r := fun he => hp (List.mem_cons_of_mem q he)
    calc fsLookup (eraseAll fs (q :: r)) p
        = fsLookup (eraseAll (fsErase fs q) r) p := rfl
      _ = fsLookup (fsErase fs q) p := ih (fsErase fs q) p h2
      _ = fsLookup fs p := fsLookup_fsErase_ne fs h1

theorem fsLookup_eraseAll_mem (ps : List String) :
    ∀ (fs : FS) (p : String), p ∈ ps → fsLookup (eraseAll fs ps) p = none := by
  induction ps with
  | nil => intro fs p hp; exact absurd hp (List.not_mem_nil p)
  | cons q r ih =>
    intro fs p hp
    by_cases h2 : p ∈ r
    · exact ih (fsErase fs q) p h2
    · have h1 : p = q := by
        rcases List.mem_cons.mp hp with h | h
        · exact h
        · exact absurd h h2
      calc fsLookup (eraseAll fs (q :: r)) p
          = fsLookup (eraseAll (fsErase fs q) r) p := rfl
        _ = fsLookup (fsErase fs q) p := fsLookup_eraseAll_not_mem r (fsErase fs q) p h2
        _ = none := by rw [h1]; exact fsLookup_fsErase_eq fs q

theorem fsLookup_writeEntries_not_target (ep base : String) (csf : Bool)
    (entries : List ZEntry) :
    ∀ (fs : FS) (p : String), p ∉ entryTargetsOf ep base csf entries →
      fsLookup (writeEntries ep base csf entries fs) p = fsLookup fs p := by
  induction entries with
  | nil => intro fs p _; rfl
  | cons e rest ih =>
    intro fs p hp
    by_cases hdir : endsWithSlash (entryFinalName base csf e.name)
    · have hp' : p ∉ entryTargetsOf ep base csf rest := by
        simpa [entryTargetsOf, hdir] using hp
      simpa [writeEntries, hdir] using ih fs p hp'
    · have hmem : p ∉ joinPath ep (entryFinalName base csf e.name) ::
          entryTargetsOf ep base csf rest := by
        simpa [entryTargetsOf, hdir] using hp
      have hne : ¬ joinPath ep (entryFinalName base csf e.name) = p :=
        fun he => hmem (by rw [he]; exact List.mem_cons_self p _)
      have hp' : p ∉ entryTargetsOf ep base csf rest :=
        fun he => hmem (List.mem_cons_of_mem _ he)
      calc fsLookup (writeEntries ep base csf (e :: rest) fs) p
          = fsLookup (writeEntries ep base csf rest
              (fsSet fs (joinPath ep (entryFinalName base csf e.name)) e.content)) p := by
            simp [writeEntries, hdir]
        _ = fsLookup (fsSet fs (joinPath ep (entryFinalName base csf e.name)) e.content) p :=
            ih _ p hp'
        _ = fsLookup fs p := fsLookup_fsSet_ne fs _ hne

theorem procEntries_nocancel (canc : Option (ℕ × ℕ)) (k : ℕ) (ep base : String) (csf : Bool)
    (hnc : ∀ j, cancAt canc k j = false) (entries : List ZEntry) :
    ∀ (j : ℕ) (fs : FS) (acc : List String),
      procEntries canc k ep base csf entries j fs acc =
        (writeEntries ep base csf entries fs, acc ++ entryTargetsOf ep base csf entries, false) := by
  induction entries with
  | nil => intro j fs acc; simp [procEntries, writeEntries, entryTargetsOf, hnc j]
  | cons e rest ih =>
    intro j fs acc
    by_cases hdir : endsWithSlash (entryFinalName base csf e.name)
    · simp [procEntries, hnc j, hdir, ih (j + 1), writeEntries, entryTargetsOf]
    · simp [procEntries, hnc j, hdir, ih (j + 1), writeEntries, entryTargetsOf]

theorem procEntries_cancelled (i jc : ℕ) (ep base : String) (csf : Bool)
    (entries : List ZEntry) :
    ∀ (j : ℕ) (fs : FS) (acc : List String), j ≤ jc → jc ≤ j + entries.length →
      procEntries (some (i, jc)) i ep base csf entries j fs acc =
        (writeEntries ep base csf (entries.take (jc - j)) fs,
          acc ++ entryTargetsOf ep base csf (entries.take (jc - j)), true) := by
  induction entries with
  | nil =>
    intro j fs acc hj hlen
    have hje : jc = j := le_antisymm (by simpa using hlen) hj
    subst hje
    simp [procEntries, cancAt, writeEntries, entryTargetsOf]
  | cons e rest ih =>
    intro j fs acc hj hlen
    by_cases hje : jc ≤ j
    · have hj0 : jc = j := le_antisymm hje hj
      subst hj0
      simp [procEntries, cancAt, writeEntries, entryTargetsOf]
    · have hjlt : j < jc := lt_of_not_le hje
      have hc : cancAt (some (i, jc)) i j = false := by
        simp [cancAt]
        omega
      have htake : (e :: rest).take (jc - j) = e :: rest.take (jc - (j + 1)) := by
        have h1 : jc - j = (jc - (j + 1)) + 1 := by omega
        rw [h1, List.take_succ_cons]
      have hlen' : jc ≤ (j + 1) + rest.length := by simp at hlen; omega
      by_cases hdir : endsWithSlash (entryFinalName base csf e.name)
      · rw [htake]
        have := ih (j + 1) fs acc hjlt hlen'
        simp [procEntries, hc, hdir, this, writeEntries, entryTargetsOf]
      · rw [htake]
        have := ih (j + 1) (fsSet fs (joinPath ep (entryFinalName base csf e.name)) e.content)
          (acc ++ [joinPath ep (entryFinalName base csf e.name)]) hjlt hlen'
        simp [procEntries, hc, hdir, this, writeEntries, entryTargetsOf]

/-- State effect of one fully-processed (uncancelled) archive: its
file entries written, its source deleted. -/
def archiveStepNC (targetDir : String) (csf msf : Bool) (a : Archive) (fs : FS) : FS :=
  if (fsLookup fs a.path).isNone then fs
  else
    fsErase
      (writeEntries (archiveExtractPath targetDir csf msf a) (stripExtS a.name) csf a.entries fs)
      a.path

theorem procArchive_nocancel (canc : Option (ℕ × ℕ)) (k : ℕ) (targetDir : String)
    (csf msf : Bool) (a : Archive) (fs : FS) (hnc : ∀ j, cancAt canc k j = false) :
    procArchive canc k targetDir csf msf a fs = (archiveStepNC targetDir csf msf a fs, false) := by
  by_cases hm : (fsLookup fs a.path).isNone
  · simp [procArchive, archiveStepNC, hm, hnc 0]
  · simp [procArchive, archiveStepNC, hm,
      procEntries_nocancel canc k (archiveExtractPath targetDir csf msf a) (stripExtS a.name)
        csf hnc a.entries 0 fs []]

/-- Sequential uncancelled processing of a list of archives. -/
def runPrefix (targetDir : String) (csf msf : Bool) : List Archive → FS → FS
  | [], fs => fs
  | a :: rest, fs => runPrefix targetDir csf msf rest (archiveStepNC targetDir csf msf a fs)

theorem procArchives_none (targetDir : String) (csf msf : Bool) (pre : List Archive) :
    ∀ (k : ℕ) (fs : FS),
      procArchives none targetDir csf msf pre k fs = runPrefix targetDir csf msf pre fs := by
  induction pre with
  | nil => intro k fs; rfl
  | cons a rest ih =>
    intro k fs
    have h := procArchive_nocancel none k targetDir csf msf a fs (fun j => rfl)
    simp [procArchives, h, runPrefix, ih (k + 1)]

theorem procArchives_append_prefix (i jc : ℕ) (targetDir : String) (csf msf : Bool)
    (rest : List Archive) (pre : List Archive) :
    ∀ (k : ℕ) (fs : FS), k + pre.length ≤ i →
      procArchives (some (i, jc)) targetDir csf msf (pre ++ rest) k fs =
        procArchives (some (i, jc)) targetDir csf msf rest (k + pre.length)
          (runPrefix targetDir csf msf pre fs) := by
  induction pre with
  | nil => intro k fs _; simp [runPrefix]
  | cons a pr ih =>
    intro k fs hk
    have hki : k < i := by simp at hk; omega
    have hnc : ∀ j, cancAt (some (i, jc)) k j = false := by
      intro j
      simp [cancAt]
      omega
    have h := procArchive_nocancel (some (i, jc)) k targetDir csf msf a fs hnc
    have hk' : (k + 1) + pr.length ≤ i := by simp at hk ⊢; omega
    calc procArchives (some (i, jc)) targetDir csf msf ((a :: pr) ++ rest) k fs
        = procArchives (some (i, jc)) targetDir csf msf (pr ++ rest) (k + 1)
            (archiveStepNC targetDir csf msf a fs) := by
          simp [procArchives, h]
      _ = procArchives (some (i, jc)) targetDir csf msf rest ((k + 1) + pr.length)
            (runPrefix targetDir csf msf pr (archiveStepNC targetDir csf msf a fs)) :=
          ih (k + 1) _ hk'
      _ = procArchives (some (i, jc)) targetDir csf msf rest (k + (a :: pr).length)
            (runPrefix targetDir csf msf (a :: pr) fs) := by
          rw [runPrefix]
          congr 1
          simp
          omega

theorem runPrefix_frame (targetDir : String) (csf msf : Bool) (pre : List Archive) :
    ∀ (fs : FS) (p : String),
      (∀ a ∈ pre, p ∉ entryTargets targetDir csf msf a ∧ ¬ p = a.path) →
      fsLookup (runPrefix targetDir csf msf pre fs) p = fsLookup fs p := by
  induction pre with
  | nil => intro fs p _; rfl
  | cons a rest ih =>
    intro fs p hp
    obtain ⟨hpt, hppath⟩ := hp a (List.mem_cons_self a rest)
    have hstep : fsLookup (archiveStepNC targetDir csf msf a fs) p = fsLookup fs p := by
      by_cases hm : (fsLookup fs a.path).isNone
      · simp [archiveStepNC, hm]
      · rw [archiveStepNC, if_neg hm]
        calc fsLookup (fsErase (writeEntries (archiveExtractPath targetDir csf msf a)
              (stripExtS a.name) csf a.entries fs) a.path) p
            = fsLookup (writeEntries (archiveExtractPath targetDir csf msf a)
                (stripExtS a.name) csf a.entries fs) p :=
              fsLookup_fsErase_ne _ (fun he => hppath he.symm)
          _ = fsLookup fs p := fsLookup_writeEntries_not_target _ _ _ _ fs p hpt
    rw [runPrefix, ih _ p (fun b hb => hp b (List.mem_cons_of_mem a hb)), hstep]

theorem upsert_append (acc : List Archive) (a : Archive)
    (h : ∀ b ∈ acc, ¬ b.path = a.path) : upsertArchive acc a = acc ++ [a] := by
  induction acc with
  | nil => rfl
  | cons b r ih =>
    have hb : ¬ b.path = a.path := h b (List.mem_cons_self b r)
    simp [upsertArchive, hb, ih (fun c hc => h c (List.mem_cons_of_mem b hc))]

theorem uniqueArchives_go (l : List Archive) :
    ∀ acc : List Archive, (∀ a ∈ l, ¬ a.path = "") →
      l.Pairwise (fun a b => ¬ a.path = b.path) →
      (∀ a ∈ l, ∀ b ∈ acc, ¬ b.path = a.path) →
      l.foldl (fun acc a => if a.path = "" then acc else upsertArchive acc a) acc = acc ++ l := by
  induction l with
  | nil => intro acc _ _ _; simp
  | cons a rest ih =>
    intro acc hp hpw hacc
    have ha : ¬ a.path = "" := hp a (List.mem_cons_self a rest)
    have hstep : (if a.path = "" then acc else upsertArchive acc a) = acc ++ [a] := by
      rw [if_neg ha, upsert_append acc a (hacc a (List.mem_cons_self a rest))]
    rw [List.foldl_cons, hstep]
    have hrec := ih (acc ++ [a]) (fun x hx => hp x (List.mem_cons_of_mem a hx))
      (List.Pairwise.of_cons hpw)
      (by
        intro x hx b hb
        rcases List.mem_append.mp hb with hb' | hb'
        · exact hacc x (List.mem_cons_of_mem a hx) b hb'
        · have hba : b = a := by simpa using hb'
          rw [hba]
          exact (List.rel_of_pairwise_cons hpw hx))
    rw [hrec]
    simp

theorem uniqueArchives_eq (l : List Archive) (hp : ∀ a ∈ l, ¬ a.path = "")
    (hd : l.Pairwise (fun a b => ¬ a.path = b.path)) : uniqueArchives l = l := by
  have := uniqueArchives_go l [] hp hd (by intro a _ b hb; exact absurd hb (List.not_mem_nil b))
  simpa [uniqueArchives] using this

/-- C7: if cancellation becomes visible while archive `A` (preceded by
the fully processed `pre`, followed by `post`) is at entry index `jc`,
then in the final state (1) every output file written for `A` during
this invocation is deleted, (2) `A`'s source archive is exactly as it
was on disk before the run — not deleted, (3) every path outside `A`'s
written set is exactly as the uncancelled run over `pre` alone leaves
it: the outputs and the deleted sources of the earlier archives are
untouched.  The path-disjointness hypotheses say that distinct
archives use distinct source paths, that no output path collides with
`A`'s source, and that `pre`'s outputs do not overwrite it either. -/
theorem extraction_cancel_cleanup
    (pre post : List Archive) (A : Archive) (jc : ℕ) (targetDir : String)
    (csf msf : Bool) (fs0 : FS)
    (hzip : ∀ a ∈ pre ++ A :: post, endsWithS ".zip" (lowerS a.name) = true)
    (hpath : ∀ a ∈ pre ++ A :: post, ¬ a.path = "")
    (hnodup : (pre ++ A :: post).Pairwise (fun a b => ¬ a.path = b.path))
    (hjc : jc ≤ A.entries.length)
    (hexA : (fsLookup fs0 A.path).isSome = true)
    (hApre : ∀ a ∈ pre, A.path ∉ entryTargets targetDir csf msf a)
    (hWA : A.path ∉ entryTargetsOf (archiveExtractPath targetDir csf msf A) (stripExtS A.name)
      csf (A.entries.take jc)) :
    (∀ p ∈ entryTargetsOf (archiveExtractPath targetDir csf msf A) (stripExtS A.name) csf
        (A.entries.take jc),
      fsLookup (extractFilesModel (pre ++ A :: post) targetDir csf msf
        (some (pre.length, jc)) fs0) p = none) ∧
    fsLookup (extractFilesModel (pre ++ A :: post) targetDir csf msf
        (some (pre.length, jc)) fs0) A.path = fsLookup fs0 A.path ∧
    (fsLookup (extractFilesModel (pre ++ A :: post) targetDir csf msf
        (some (pre.length, jc)) fs0) A.path).isSome = true ∧
    (∀ p, p ∉ entryTargetsOf (archiveExtractPath targetDir csf msf A) (stripExtS A.name) csf
        (A.entries.take jc) →
      fsLookup (extractFilesModel (pre ++ A :: post) targetDir csf msf
        (some (pre.length, jc)) fs0) p =
      fsLookup (extractFilesModel pre targetDir csf msf none fs0) p) := by
  obtain ⟨hpwPre, hpwRest, hcross⟩ := List.pairwise_append.mp hnodup
  have hfull : extractFilesModel (pre ++ A :: post) targetDir csf msf (some (pre.length, jc)) fs0
      = procArchives (some (pre.length, jc)) targetDir csf msf (pre ++ A :: post) 0 fs0 := by
    unfold extractFilesModel
    rw [List.filter_eq_self.mpr (by simpa using hzip), uniqueArchives_eq _ hpath hnodup]
  have hprefixEq : extractFilesModel pre targetDir csf msf none fs0 =
      runPrefix targetDir csf msf pre fs0 := by
    unfold extractFilesModel
    rw [List.filter_eq_self.mpr
        (by simpa using fun a ha => hzip a (List.mem_append_left _ ha)),
      uniqueArchives_eq _ (fun a ha => hpath a (List.mem_append_left _ ha)) hpwPre,
      procArchives_none]
  have hsplit := procArchives_append_prefix pre.length jc targetDir csf msf (A :: post) pre 0 fs0
    (by simp)
  rw [Nat.zero_add] at hsplit
  have hframeA : fsLookup (runPrefix targetDir csf msf pre fs0) A.path = fsLookup fs0 A.path :=
    runPrefix_frame targetDir csf msf pre fs0 A.path
      (fun a ha => ⟨hApre a ha,
        fun he => hcross a ha A (List.mem_cons_self A post) he.symm⟩)
  have hP : (fsLookup (runPrefix targetDir csf msf pre fs0) A.path).isSome = true := by
    rw [hframeA]; exact hexA
  have hexP : ¬ (fsLookup (runPrefix targetDir csf msf pre fs0) A.path).isNone = true := by
    intro hn
    rw [Option.isNone_iff_eq_none] at hn
    rw [hn] at hP
    simp at hP
  have hentries := procEntries_cancelled pre.length jc (archiveExtractPath targetDir csf msf A)
    (stripExtS A.name) csf A.entries 0 (runPrefix targetDir csf msf pre fs0) []
    (Nat.zero_le jc) (by simpa using hjc)
  rw [Nat.sub_zero] at hentries
  have hA : procArchives (some (pre.length, jc)) targetDir csf msf (A :: post) pre.length
        (runPrefix targetDir csf msf pre fs0) =
      eraseAll
        (writeEntries (archiveExtractPath targetDir csf msf A) (stripExtS A.name) csf
          (A.entries.take jc) (runPrefix targetDir csf msf pre fs0))
        (entryTargetsOf (archiveExtractPath targetDir csf msf A) (stripExtS A.name) csf
          (A.entries.take jc)) := by
    rw [procArchives, procArchive, if_neg hexP]
    simp only [hentries, List.nil_append]
    by_cases hW : entryTargetsOf (archiveExtractPath targetDir csf msf A) (stripExtS A.name) csf
        (A.entries.take jc) = []
    · simp [hW, eraseAll]
    · simp [hW]
  have hfinal : extractFilesModel (pre ++ A :: post) targetDir csf msf
        (some (pre.length, jc)) fs0 =
      eraseAll
        (writeEntries (archiveExtractPath targetDir csf msf A) (stripExtS A.name) csf
          (A.entries.take jc) (runPrefix targetDir csf msf pre fs0))
        (entryTargetsOf (archiveExtractPath targetDir csf msf A) (stripExtS A.name) csf
          (A.entries.take jc)) := by
    rw [hfull, hsplit, hA]
  have hOutside : ∀ p, p ∉ entryTargetsOf (archiveExtractPath targetDir csf msf A)
      (stripExtS A.name) csf (A.entries.take jc) →
      fsLookup (extractFilesModel (pre ++ A :: post) targetDir csf msf
        (some (pre.length, jc)) fs0) p =
      fsLookup (runPrefix targetDir csf msf pre fs0) p := by
    intro p hp
    rw [hfinal, fsLookup_eraseAll_not_mem _ _ p hp,
      fsLookup_writeEntries_not_target _ _ _ _ _ p hp]
  refine ⟨?_, ?_, ?_, ?_⟩
  · intro p hp
    rw [hfinal]
    exact fsLookup_eraseAll_mem _ _ p hp
  · rw [hOutside A.path hWA, hframeA]
  · rw [hOutside A.path hWA, hframeA]
    exact hexA
  · intro p hp
    rw [hOutside p hp, hprefixEq]

/-- C7 witness: a two-archive batch, cancellation at the second entry
of the second archive.  The first archive's output `/t/x` survives
with its content, its source is gone; the cancelled archive's written
output `/t/y` is deleted, its unwritten entry `/t/z` never existed,
and its source `/d/b.zip` still holds its original bytes. -/
theorem extraction_cancel_cleanup_witness :
    fsLookup
        (extractFilesModel
          [⟨"a.zip", "/d/a.zip", [⟨"x", [1]⟩]⟩, ⟨"b.zip", "/d/b.zip", [⟨"y", [2]⟩, ⟨"z", [3]⟩]⟩]
          "/t" false false (some (1, 1))
          [("/d/a.zip", [9]), ("/d/b.zip", [8])]) "/t/y" = none ∧
    fsLookup
        (extractFilesModel
          [⟨"a.zip", "/d/a.zip", [⟨"x", [1]⟩]⟩, ⟨"b.zip", "/d/b.zip", [⟨"y", [2]⟩, ⟨"z", [3]⟩]⟩]
          "/t" false false (some (1, 1))
          [("/d/a.zip", [9]), ("/d/b.zip", [8])]) "/d/b.zip" = some [8] ∧
    fsLookup
        (extractFilesModel
          [⟨"a.zip", "/d/a.zip", [⟨"x", [1]⟩]⟩, ⟨"b.zip", "/d/b.zip", [⟨"y", [2]⟩, ⟨"z", [3]⟩]⟩]
          "/t" false false (some (1, 1))
          [("/d/a.zip", [9]), ("/d/b.zip", [8])]) "/t/x" =
      fsLookup
        (extractFilesModel [⟨"a.zip", "/d/a.zip", [⟨"x", [1]⟩]⟩] "/t" false false none
          [("/d/a.zip", [9]), ("/d/b.zip", [8])]) "/t/x" := by
  have h := extraction_cancel_cleanup [⟨"a.zip", "/d/a.zip", [⟨"x", [1]⟩]⟩] []
    ⟨"b.zip", "/d/b.zip", [⟨"y", [2]⟩, ⟨"z", [3]⟩]⟩ 1 "/t" false false
    [("/d/a.zip", [9]), ("/d/b.zip", [8])]
    (by decide) (by decide) (by decide) (by decide) (by decide) (by decide) (by decide)
  exact ⟨h.1 "/t/y" (by decide), h.2.1.trans (by decide), h.2.2.2 "/t/x" (by decide)⟩

end Myrient
